import Mathlib

/-!
Verification of the libunwindstack core against its specification.

The definitions below are shallow embeddings of functions from
src/libunwindstack (Memory.cpp, MapInfo.cpp, DexFile.cpp, JitDebug.cpp,
GlobalDebugImpl.h, RegsRiscv64.cpp).  Machine integers are modelled as
Nat, with explicit `% 2^w` arithmetic where C++ overflow or narrowing
matters.  External capabilities (the file system, the XZ codec, the ART
dex symbolizer, target process memory) are modelled as oracle
parameters, mirroring how the spec declares them out of scope.
-/

/-! ### Byte-level model of the Memory oracle

A target address space is a partial byte map `Nat → Option Nat`.
`Memory::Read(addr, dst, size)` copies bytes from `addr` until either
`size` bytes were copied or an unreadable byte is hit, returning the
count; `readBytes` returns the list of bytes such a read copies (its
length is the return value of `Read`).  `Memory::ReadFully` succeeds iff
the length equals the requested size (Memory.cpp lines 170-173). -/
def readBytes (mem : Nat → Option Nat) : Nat → Nat → List Nat
  | _, 0 => []
  | a, n+1 =>
    match mem a with
    | none => []
    | some b => b :: readBytes mem (a+1) n

theorem readBytes_zero (mem : Nat → Option Nat) (a : Nat) : readBytes mem a 0 = [] := rfl

theorem readBytes_succ_none (mem : Nat → Option Nat) (a n : Nat) (h : mem a = none) :
    readBytes mem a (n+1) = [] := by
  simp [readBytes, h]

theorem readBytes_succ_some (mem : Nat → Option Nat) (a n b : Nat) (h : mem a = some b) :
    readBytes mem a (n+1) = b :: readBytes mem (a+1) n := by
  simp [readBytes, h]

theorem readBytes_length_le (mem : Nat → Option Nat) (n a : Nat) :
    (readBytes mem a n).length ≤ n := by
  induction n generalizing a with
  | zero => simp [readBytes]
  | succ k ih =>
    cases h : mem a with
    | none => simp [readBytes_succ_none mem a k h]
    | some b =>
      rw [readBytes_succ_some mem a k b h]
      simpa using ih (a+1)

/-- Reading fewer bytes is a prefix of reading more bytes. -/
theorem readBytes_take (mem : Nat → Option Nat) (s : Nat) :
    ∀ n a, s ≤ n → (readBytes mem a n).take s = readBytes mem a s := by
  induction s with
  | zero => intro n a _; rfl
  | succ t ih =>
    intro n a hs
    cases n with
    | zero => omega
    | succ m =>
      cases h : mem a with
      | none => rw [readBytes_succ_none mem a m h, readBytes_succ_none mem a t h]; rfl
      | some b =>
        rw [readBytes_succ_some mem a m b h, readBytes_succ_some mem a t b h,
          List.take_succ_cons, ih m (a+1) (by omega)]

/-- When the first `m` bytes are all readable, a longer read splits. -/
theorem readBytes_full_split (mem : Nat → Option Nat) (m : Nat) :
    ∀ a n, (readBytes mem a m).length = m →
      readBytes mem a (m + n) = readBytes mem a m ++ readBytes mem (a + m) n := by
  induction m with
  | zero => intro a n _; simp [readBytes]
  | succ k ih =>
    intro a n h
    cases hm : mem a with
    | none => rw [readBytes_succ_none mem a k hm] at h; simp at h
    | some b =>
      rw [readBytes_succ_some mem a k b hm] at h
      have hk : (readBytes mem (a+1) k).length = k := by simpa using h
      have : k + 1 + n = (k + n) + 1 := by omega
      rw [this, readBytes_succ_some mem a (k+n) b hm,
          readBytes_succ_some mem a k b hm, ih (a+1) n hk]
      simp [Nat.add_assoc, Nat.add_comm 1 k]

/-- Dropping a fully readable prefix of a fully readable read. -/
theorem readBytes_full_drop (mem : Nat → Option Nat) (a n k : Nat)
    (h : (readBytes mem a n).length = n) (hk : k ≤ n) :
    (readBytes mem a n).drop k = readBytes mem (a + k) (n - k) := by
  have hkfull : (readBytes mem a k).length = k := by
    have := readBytes_take mem k n a hk
    calc (readBytes mem a k).length = ((readBytes mem a n).take k).length := by rw [this]
      _ = min k n := by simp [h]
      _ = k := by omega
  have hsplit := readBytes_full_split mem k a (n - k) hkfull
  rw [show k + (n - k) = n by omega] at hsplit
  rw [hsplit, List.drop_append_of_le_length (by omega), List.drop_of_length_le (by omega)]
  simp

/-! ### MemoryCache (Memory.cpp lines 465-509)

`MemoryCache::Read` keeps a page cache (page size `2^kCacheBits`); the
page size is left as the parameter `bits` (MemoryCache.h is not part of
src/, the spec only states the size is a power of two).  The cache state
is a partial map from page number to the page's bytes.  `pageData`
models the find / operator[] + ReadFully / erase sequence used for one
page: on a miss it fetches the whole page with `ReadFully`, erasing the
entry again if the fetch fails. -/
def pageData (mem : Nat → Option Nat) (c : Nat → Option (List Nat)) (bits page : Nat) :
    Option (List Nat) × (Nat → Option (List Nat)) :=
  match c page with
  | some d => (some d, c)
  | none =>
    let f := readBytes mem (page * 2^bits) (2^bits)
    if f.length = 2^bits then (some f, fun p => if p = page then some f else c p)
    else (none, c)

/-- The part of MemoryCache::Read after the first page was found or
fetched successfully (`d` is that page's data, `c1` the cache state).
`(addr / 2^bits + 1) * 2^bits - addr` is the source's `max_read`.  When
the read crosses into the following page the code fetches that one page
too and never loops further. -/
def cacheReadHit (bits : Nat) (mem : Nat → Option Nat) (d : List Nat)
    (c1 : Nat → Option (List Nat)) (addr size : Nat) :
    List Nat × (Nat → Option (List Nat)) :=
  if size ≤ (addr / 2^bits + 1) * 2^bits - addr then
    ((d.drop (addr % 2^bits)).take size, c1)
  else
    match pageData mem c1 bits (addr / 2^bits + 1) with
    | (none, c2) =>
      ((d.drop (addr % 2^bits)).take ((addr / 2^bits + 1) * 2^bits - addr) ++
        readBytes mem ((addr / 2^bits + 1) * 2^bits)
          (size - ((addr / 2^bits + 1) * 2^bits - addr)), c2)
    | (some d2, c2) =>
      ((d.drop (addr % 2^bits)).take ((addr / 2^bits + 1) * 2^bits - addr) ++
        d2.take (size - ((addr / 2^bits + 1) * 2^bits - addr)), c2)

/-- MemoryCache::Read.  Returns the bytes copied to `dst` and the new
cache state.  Reads larger than 64 bytes bypass the cache entirely; on
a failed page fetch the read falls back to the uncached path. -/
def cacheRead (bits : Nat) (mem : Nat → Option Nat) (c : Nat → Option (List Nat))
    (addr size : Nat) : List Nat × (Nat → Option (List Nat)) :=
  if 64 < size then (readBytes mem addr size, c)
  else
    match pageData mem c bits (addr / 2^bits) with
    | (none, c1) => (readBytes mem addr size, c1)
    | (some d, c1) => cacheReadHit bits mem d c1 addr size

/-- A cache state is consistent with the underlying memory when every
cached page holds exactly the page's bytes and the whole page is
readable.  This is the invariant `MemoryCache` maintains: pages are only
inserted after a successful `ReadFully` of the full page. -/
def CacheConsistent (bits : Nat) (mem : Nat → Option Nat) (c : Nat → Option (List Nat)) : Prop :=
  ∀ p d, c p = some d →
    d = readBytes mem (p * 2^bits) (2^bits) ∧
    (readBytes mem (p * 2^bits) (2^bits)).length = 2^bits

theorem pageData_none (mem : Nat → Option Nat) (c : Nat → Option (List Nat)) (bits page : Nat)
    (c1 : Nat → Option (List Nat)) (h : pageData mem c bits page = (none, c1)) : c1 = c := by
  unfold pageData at h
  cases hc : c page with
  | some d => rw [hc] at h; simp at h
  | none =>
    rw [hc] at h
    simp only at h
    split at h
    · simp at h
    · exact (Prod.mk.injEq _ _ _ _ ▸ h).2.symm ▸ rfl

theorem pageData_some (mem : Nat → Option Nat) (c : Nat → Option (List Nat)) (bits page : Nat)
    (hc : CacheConsistent bits mem c) (d : List Nat) (c1 : Nat → Option (List Nat))
    (h : pageData mem c bits page = (some d, c1)) :
    d = readBytes mem (page * 2^bits) (2^bits) ∧
    (readBytes mem (page * 2^bits) (2^bits)).length = 2^bits ∧
    CacheConsistent bits mem c1 := by
  unfold pageData at h
  cases hcp : c page with
  | some d0 =>
    rw [hcp] at h
    obtain ⟨h1, h2⟩ := Prod.mk.injEq _ _ _ _ ▸ h
    obtain ⟨hd, hl⟩ := hc page d0 hcp
    cases h1
    exact ⟨hd, hl, h2 ▸ hc⟩
  | none =>
    rw [hcp] at h
    simp only at h
    split at h
    next hf =>
      obtain ⟨h1, h2⟩ := Prod.mk.injEq _ _ _ _ ▸ h
      cases h1
      refine ⟨rfl, hf, ?_⟩
      intro p dp hp
      rw [← h2] at hp
      by_cases hpp : p = page
      · subst hpp
        simp only [if_pos rfl] at hp
        cases hp
        exact ⟨rfl, hf⟩
      · simp only [if_neg hpp] at hp
        exact hc p dp hp
    · simp at h

theorem cacheRead_bypass (bits : Nat) (mem : Nat → Option Nat) (c : Nat → Option (List Nat))
    (addr size : Nat) (h : 64 < size) :
    cacheRead bits mem c addr size = (readBytes mem addr size, c) := by
  unfold cacheRead; rw [if_pos h]

theorem cacheRead_miss (bits : Nat) (mem : Nat → Option Nat) (c c1 : Nat → Option (List Nat))
    (addr size : Nat) (h : ¬ 64 < size)
    (hpd : pageData mem c bits (addr / 2^bits) = (none, c1)) :
    cacheRead bits mem c addr size = (readBytes mem addr size, c1) := by
  unfold cacheRead; rw [if_neg h, hpd]

theorem cacheRead_hit (bits : Nat) (mem : Nat → Option Nat) (c c1 : Nat → Option (List Nat))
    (d : List Nat) (addr size : Nat) (h : ¬ 64 < size)
    (hpd : pageData mem c bits (addr / 2^bits) = (some d, c1)) :
    cacheRead bits mem c addr size = cacheReadHit bits mem d c1 addr size := by
  unfold cacheRead; rw [if_neg h, hpd]

theorem cacheReadHit_within (bits : Nat) (mem : Nat → Option Nat) (d : List Nat)
    (c1 : Nat → Option (List Nat)) (addr size : Nat)
    (h : size ≤ (addr / 2^bits + 1) * 2^bits - addr) :
    cacheReadHit bits mem d c1 addr size = ((d.drop (addr % 2^bits)).take size, c1) := by
  unfold cacheReadHit; rw [if_pos h]

theorem cacheReadHit_cross_miss (bits : Nat) (mem : Nat → Option Nat) (d : List Nat)
    (c1 c2 : Nat → Option (List Nat)) (addr size : Nat)
    (h : ¬ size ≤ (addr / 2^bits + 1) * 2^bits - addr)
    (hpd : pageData mem c1 bits (addr / 2^bits + 1) = (none, c2)) :
    cacheReadHit bits mem d c1 addr size =
      ((d.drop (addr % 2^bits)).take ((addr / 2^bits + 1) * 2^bits - addr) ++
        readBytes mem ((addr / 2^bits + 1) * 2^bits)
          (size - ((addr / 2^bits + 1) * 2^bits - addr)), c2) := by
  unfold cacheReadHit; rw [if_neg h, hpd]

theorem cacheReadHit_cross_hit (bits : Nat) (mem : Nat → Option Nat) (d d2 : List Nat)
    (c1 c2 : Nat → Option (List Nat)) (addr size : Nat)
    (h : ¬ size ≤ (addr / 2^bits + 1) * 2^bits - addr)
    (hpd : pageData mem c1 bits (addr / 2^bits + 1) = (some d2, c2)) :
    cacheReadHit bits mem d c1 addr size =
      ((d.drop (addr % 2^bits)).take ((addr / 2^bits + 1) * 2^bits - addr) ++
        d2.take (size - ((addr / 2^bits + 1) * 2^bits - addr)), c2) := by
  unfold cacheReadHit; rw [if_neg h, hpd]

/-- Small reads through the cache return exactly the bytes an uncached
read returns, and the cache stays consistent. -/
theorem cacheRead_small (bits : Nat) (mem : Nat → Option Nat) (c : Nat → Option (List Nat))
    (addr size : Nat) (hc : CacheConsistent bits mem c) (hbits : 6 ≤ bits)
    (hsize : size ≤ 64) :
    ∃ c2, cacheRead bits mem c addr size = (readBytes mem addr size, c2) ∧
      CacheConsistent bits mem c2 := by
  have hpsize : 0 < 2^bits := pow_pos (by omega) bits
  have h64p : (64:Nat) ≤ 2^bits := by
    calc (64:Nat) = 2^6 := by norm_num
      _ ≤ 2^bits := Nat.pow_le_pow_right (by omega) hbits
  have h64 : ¬ 64 < size := by omega
  have hklt : addr % 2^bits < 2^bits := Nat.mod_lt _ hpsize
  have haddr : (addr / 2^bits) * 2^bits + addr % 2^bits = addr := by
    rw [Nat.mul_comm]; exact Nat.div_add_mod addr (2^bits)
  have hmul : (addr / 2^bits + 1) * 2^bits = (addr / 2^bits) * 2^bits + 2^bits := by ring
  have hmax : (addr / 2^bits + 1) * 2^bits - addr = 2^bits - addr % 2^bits := by omega
  cases hpd : pageData mem c bits (addr / 2^bits) with
  | mk o c1 =>
    cases o with
    | none =>
      have hceq : c1 = c := pageData_none mem c bits _ c1 hpd
      exact ⟨c1, cacheRead_miss bits mem c c1 addr size h64 hpd, hceq ▸ hc⟩
    | some d =>
      obtain ⟨hd, hfull, hc1⟩ := pageData_some mem c bits _ hc d c1 hpd
      have hdrop : d.drop (addr % 2^bits) = readBytes mem addr (2^bits - addr % 2^bits) := by
        rw [hd, readBytes_full_drop mem _ _ _ hfull (le_of_lt hklt), haddr]
      rw [cacheRead_hit bits mem c c1 d addr size h64 hpd]
      by_cases hle : size ≤ (addr / 2^bits + 1) * 2^bits - addr
      · refine ⟨c1, ?_, hc1⟩
        rw [cacheReadHit_within bits mem d c1 addr size hle, hdrop,
          readBytes_take mem size _ addr (by omega)]
      · -- the read crosses into the following page
        have hfull1 : (readBytes mem addr (2^bits - addr % 2^bits)).length
            = 2^bits - addr % 2^bits := by
          rw [← hdrop, hd]
          simp [hfull]
        have hpart1 : (d.drop (addr % 2^bits)).take ((addr / 2^bits + 1) * 2^bits - addr)
            = readBytes mem addr (2^bits - addr % 2^bits) := by
          rw [hdrop, hmax]
          exact List.take_of_length_le (le_of_eq hfull1)
        have hsplit : readBytes mem addr size =
            readBytes mem addr (2^bits - addr % 2^bits) ++
              readBytes mem ((addr / 2^bits + 1) * 2^bits)
                (size - ((addr / 2^bits + 1) * 2^bits - addr)) := by
          have h1 := readBytes_full_split mem (2^bits - addr % 2^bits) addr
            (size - (2^bits - addr % 2^bits)) hfull1
          rw [show (2^bits - addr % 2^bits) + (size - (2^bits - addr % 2^bits)) = size by omega]
            at h1
          rw [h1, show addr + (2^bits - addr % 2^bits) = (addr / 2^bits + 1) * 2^bits by omega,
            hmax]
        cases hpd2 : pageData mem c1 bits (addr / 2^bits + 1) with
        | mk o2 c2 =>
          cases o2 with
          | none =>
            have hceq2 : c2 = c1 := pageData_none mem c1 bits _ c2 hpd2
            refine ⟨c2, ?_, hceq2 ▸ hc1⟩
            rw [cacheReadHit_cross_miss bits mem d c1 c2 addr size hle hpd2, hsplit, hpart1]
          | some d2 =>
            obtain ⟨hd2, hfull2, hc2⟩ := pageData_some mem c1 bits _ hc1 d2 c2 hpd2
            refine ⟨c2, ?_, hc2⟩
            rw [cacheReadHit_cross_hit bits mem d d2 c1 c2 addr size hle hpd2, hsplit, hpart1]
            congr 1
            rw [hd2, readBytes_take mem _ _ _ (by omega)]

/-- C2: a read of `n ≤ 64` bytes through a consistent MemoryCache
returns exactly the bytes and byte count of an uncached read of the
underlying memory, and leaves the cache consistent; a read of more than
64 bytes bypasses the cache and is delegated to the underlying memory
unchanged (Memory.cpp lines 465-509).  The underlying memory is the
deterministic byte map `mem`; `6 ≤ bits` records that the cache page
(`2^kCacheBits` bytes) holds at least one maximal 64-byte read. -/
theorem memoryCache_read_refines (bits : Nat) (mem : Nat → Option Nat)
    (c : Nat → Option (List Nat)) (addr size : Nat)
    (hc : CacheConsistent bits mem c) (hbits : 6 ≤ bits) :
    (size ≤ 64 →
      (cacheRead bits mem c addr size).1 = readBytes mem addr size ∧
      CacheConsistent bits mem (cacheRead bits mem c addr size).2) ∧
    (64 < size → cacheRead bits mem c addr size = (readBytes mem addr size, c)) := by
  constructor
  · intro hsize
    obtain ⟨c2, heq, hc2⟩ := cacheRead_small bits mem c addr size hc hbits hsize
    rw [heq]
    exact ⟨rfl, hc2⟩
  · intro h
    exact cacheRead_bypass bits mem c addr size h

/-- Concrete witness for C2: a 4-byte read at address 6 of a memory
whose bytes 0..9 read `i + 10`, through an initially empty cache with
4096-byte pages, returns the same bytes as the uncached read. -/
theorem memoryCache_read_refines_witness :
    (cacheRead 12 (fun a => if a < 10 then some (a + 10) else none) (fun _ => none) 6 4).1 =
      readBytes (fun a => if a < 10 then some (a + 10) else none) 6 4 :=
  ((memoryCache_read_refines 12 (fun a => if a < 10 then some (a + 10) else none)
      (fun _ => none) 6 4 (fun p d h => by cases h) (by omega)).1 (by omega)).1

/-! ### Ordered map model (std::map with Nat keys)

`std::map<K, V>` is modelled as an association list with strictly
increasing keys.  `mapEmplace` models `std::map::emplace`: it inserts
`(k, v)` keeping the list sorted, leaves the map unchanged when the key
is already present, and returns the entry the resulting iterator points
at together with the new map.  `mapUpperBound` models
`std::map::upper_bound`: on a sorted list, the first entry whose key is
strictly greater than the probe. -/
def mapEmplace (l : List (Nat × α)) (k : Nat) (v : α) : α × List (Nat × α) :=
  match l with
  | [] => (v, [(k, v)])
  | (k', v') :: t =>
    if k < k' then (v, (k, v) :: (k', v') :: t)
    else if k = k' then (v', (k', v') :: t)
    else
      let r := mapEmplace t k v
      (r.1, (k', v') :: r.2)

def mapUpperBound (l : List (Nat × α)) (k : Nat) : Option (Nat × α) :=
  l.find? (fun e => decide (k < e.1))

def KeysSorted (l : List (Nat × α)) : Prop :=
  l.Pairwise (fun a b => a.1 < b.1)

theorem mapUpperBound_none (l : List (Nat × α)) (k : Nat)
    (h : mapUpperBound l k = none) : ∀ e ∈ l, e.1 ≤ k := by
  intro e he
  have := List.find?_eq_none.mp h e he
  simpa using this

/-- On a sorted map, `upper_bound` returns a member whose key is
strictly greater than the probe, and no member with key greater than
the probe has a smaller key. -/
theorem mapUpperBound_spec (l : List (Nat × α)) (k : Nat) (e : Nat × α)
    (hs : KeysSorted l) (h : mapUpperBound l k = some e) :
    e ∈ l ∧ k < e.1 ∧ ∀ e' ∈ l, k < e'.1 → e.1 ≤ e'.1 := by
  induction l with
  | nil => simp [mapUpperBound] at h
  | cons hd t ih =>
    unfold KeysSorted at hs
    rw [List.pairwise_cons] at hs
    by_cases hk : k < hd.1
    · rw [mapUpperBound, List.find?_cons_of_pos _ (by simpa using hk)] at h
      cases h
      refine ⟨List.mem_cons_self _ _, hk, ?_⟩
      intro e' he' _
      rcases List.mem_cons.mp he' with rfl | he'
      · exact le_refl _
      · exact le_of_lt (hs.1 e' he')
    · rw [mapUpperBound, List.find?_cons_of_neg _ (by simpa using hk)] at h
      obtain ⟨hmem, hlt, hmin⟩ := ih hs.2 h
      refine ⟨List.mem_cons_of_mem _ hmem, hlt, ?_⟩
      intro e' he' hk'
      rcases List.mem_cons.mp he' with rfl | he'
      · omega
      · exact hmin e' he' hk'

theorem mapEmplace_mem (l : List (Nat × α)) (k : Nat) (v : α) (e : Nat × α)
    (h : e ∈ (mapEmplace l k v).2) : e ∈ l ∨ e = (k, v) := by
  induction l with
  | nil =>
    simp only [mapEmplace] at h
    rcases List.mem_singleton.mp h with rfl
    exact Or.inr rfl
  | cons hd t ih =>
    rw [mapEmplace] at h
    split at h
    · rcases List.mem_cons.mp h with rfl | h
      · exact Or.inr rfl
      · exact Or.inl h
    · split at h
      · exact Or.inl h
      · rcases List.mem_cons.mp h with rfl | h
        · exact Or.inl (List.mem_cons_self _ _)
        · rcases ih h with h | h
          · exact Or.inl (List.mem_cons_of_mem _ h)
          · exact Or.inr h

theorem mapEmplace_sorted (l : List (Nat × α)) (k : Nat) (v : α)
    (hs : KeysSorted l) : KeysSorted (mapEmplace l k v).2 := by
  induction l with
  | nil => simp [mapEmplace, KeysSorted]
  | cons hd t ih =>
    unfold KeysSorted at hs ⊢
    rw [List.pairwise_cons] at hs
    rw [mapEmplace]
    split
    next hk =>
      rw [List.pairwise_cons]
      refine ⟨?_, List.pairwise_cons.mpr hs⟩
      intro e he
      rcases List.mem_cons.mp he with rfl | he
      · exact hk
      · exact lt_trans hk (hs.1 e he)
    · split
      next hne hkeq => exact List.pairwise_cons.mpr hs
      next hne hkeq =>
        rw [List.pairwise_cons]
        refine ⟨?_, ih hs.2⟩
        intro e he
        rcases mapEmplace_mem t k v e he with h | rfl
        · exact hs.1 e h
        · omega

/-! ### MemoryRange and MemoryRanges (Memory.cpp lines 352-393)

`MemoryRange` exposes the window `[off, off + len)` of the caller's
address space, backed by `[begin_, begin_ + len)` of the underlying
memory.  `MemoryRanges` keeps the ranges in a `std::map` keyed by the
exclusive end address `off + len`, clamped to `UINT64_MAX` when the
uint64 addition overflows. -/
structure MRange where
  begin_ : Nat
  len : Nat
  off : Nat
deriving DecidableEq, Repr

/-- MemoryRange::Read.  The uint64 overflow check on
`read_offset + begin_` is explicit. -/
def rangeRead (mem : Nat → Option Nat) (r : MRange) (addr size : Nat) : List Nat :=
  if addr < r.off then []
  else if r.len ≤ addr - r.off then []
  else if 2^64 ≤ r.begin_ + (addr - r.off) then []
  else readBytes mem (r.begin_ + (addr - r.off)) (min size (r.len - (addr - r.off)))

/-- MemoryRanges::Insert. -/
def rangesInsert (l : List (Nat × MRange)) (r : MRange) : List (Nat × MRange) :=
  (mapEmplace l (min (r.off + r.len) (2^64 - 1)) r).2

/-- MemoryRanges::Read. -/
def rangesRead (mem : Nat → Option Nat) (l : List (Nat × MRange)) (addr size : Nat) :
    List Nat :=
  match mapUpperBound l addr with
  | some e => rangeRead mem e.2 addr size
  | none => []

theorem rangesInsert_sorted (l : List (Nat × MRange)) (r : MRange)
    (hs : KeysSorted l) : KeysSorted (rangesInsert l r) :=
  mapEmplace_sorted l _ r hs

/-- Every read through a MemoryRange stays inside that range's window:
the byte count never exceeds the distance from `addr` to the range's
exclusive end `off + len`. -/
theorem rangeRead_length_le (mem : Nat → Option Nat) (r : MRange) (addr size : Nat) :
    (rangeRead mem r addr size).length ≤ r.off + r.len - addr := by
  unfold rangeRead
  split
  · simp
  · split
    · simp
    · split
      · simp
      · next h1 h2 h3 =>
        have := readBytes_length_le mem (min size (r.len - (addr - r.off)))
          (r.begin_ + (addr - r.off))
        omega

/-- C4: a `MemoryRanges` read is delegated to at most one stored range,
namely the one with the smallest exclusive end address strictly greater
than `addr`; if no such range exists the read returns no bytes; and the
bytes returned never extend past the selected range's window, so no
single read returns bytes drawn from two different ranges
(Memory.cpp lines 375-393). -/
theorem memoryRanges_read_single (mem : Nat → Option Nat) (l : List (Nat × MRange))
    (addr size : Nat) (hs : KeysSorted l) :
    (mapUpperBound l addr = none →
      rangesRead mem l addr size = [] ∧ ∀ e' ∈ l, e'.1 ≤ addr) ∧
    (∀ e, mapUpperBound l addr = some e →
      e ∈ l ∧ addr < e.1 ∧ (∀ e' ∈ l, addr < e'.1 → e.1 ≤ e'.1) ∧
      rangesRead mem l addr size = rangeRead mem e.2 addr size ∧
      (rangeRead mem e.2 addr size).length ≤ e.2.off + e.2.len - addr) := by
  constructor
  · intro h
    refine ⟨?_, mapUpperBound_none l addr h⟩
    unfold rangesRead
    rw [h]
  · intro e h
    obtain ⟨hmem, hlt, hmin⟩ := mapUpperBound_spec l addr e hs h
    refine ⟨hmem, hlt, hmin, ?_, rangeRead_length_le mem e.2 addr size⟩
    unfold rangesRead
    rw [h]

/-- Concrete witness for C4: two ranges `[100, 200)` and `[200, 300)`;
a read at 150 is delegated to the first range only and never crosses
into the second. -/
theorem memoryRanges_read_single_witness :
    rangesRead (fun _ => some 1)
        [(200, ⟨1000, 100, 100⟩), (300, ⟨2000, 100, 200⟩)] 150 80 =
      rangeRead (fun _ => some 1) ⟨1000, 100, 100⟩ 150 80 ∧
    (rangeRead (fun _ => some 1) (⟨1000, 100, 100⟩ : MRange) 150 80).length ≤ 200 - 150 := by
  have h := (memoryRanges_read_single (fun _ => some 1)
    [(200, ⟨1000, 100, 100⟩), (300, ⟨2000, 100, 200⟩)] 150 80
    (by unfold KeysSorted; simp)).2 (200, ⟨1000, 100, 100⟩) (by unfold mapUpperBound; simp)
  exact ⟨h.2.2.2.1, h.2.2.2.2⟩

/-! ### uint64 subtraction -/

/-- Wrapping uint64 subtraction `a - b`. -/
def sub64 (a b : Nat) : Nat := (a + 2^64 - b % 2^64) % 2^64

theorem sub64_eq (a b : Nat) (ha : a < 2^64) (hb : b ≤ a) : sub64 a b = a - b := by
  unfold sub64
  rw [Nat.mod_eq_of_lt (lt_of_le_of_lt hb ha),
    show a + 2^64 - b = 2^64 + (a - b) by omega, Nat.add_mod_left]
  exact Nat.mod_eq_of_lt (by omega)

/-! ### DexFile (DexFile.cpp, DexFile.h)

The ART dex symbolizer (`art_api::dex::DexFile::FindMethodAtOffset`) is
an external capability; it is modelled as the oracle `findMethod`,
returning for a file-relative offset the method (code offset, code
size, qualified name) whose code range the ART library reports there.
The per-file symbol cache `symbols_` is a `std::map<uint32_t, Info>`
keyed by the interval's exclusive end offset; the uint32 key narrows
the uint64 probe and the emplaced key modulo `2^32`. -/
structure DexMethod where
  offset : Nat
  codeSize : Nat
  name : String
deriving DecidableEq, Repr

structure DexInfo where
  offset : Nat
  name : String
deriving DecidableEq, Repr

structure DexModel where
  base : Nat
  fileSize : Nat
  findMethod : Nat → Option DexMethod

/-- DexFile::IsValidPc (DexFile.h lines 45-47). -/
def dexIsValidPc (d : DexModel) (pc : Nat) : Prop :=
  d.base ≤ pc ∧ pc - d.base < d.fileSize

/-- The cache-miss path of DexFile::GetFunctionName (DexFile.cpp lines
121-131): consult the ART oracle, emplace the found interval keyed by
`offset + code_size` (narrowed to uint32) and answer from the entry the
emplace iterator points at. -/
def dexMiss (d : DexModel) (cache : List (Nat × DexInfo)) (off : Nat) :
    Option (String × Nat) × List (Nat × DexInfo) :=
  match d.findMethod off with
  | none => (none, cache)
  | some m =>
    (some ((mapEmplace cache ((m.offset + m.codeSize) % 2^32) ⟨m.offset, m.name⟩).1.name,
        sub64 off (mapEmplace cache ((m.offset + m.codeSize) % 2^32) ⟨m.offset, m.name⟩).1.offset),
      (mapEmplace cache ((m.offset + m.codeSize) % 2^32) ⟨m.offset, m.name⟩).2)

/-- DexFile::GetFunctionName (DexFile.cpp lines 114-137).  Returns the
(name, method_offset) result and the updated symbol cache.  The
`upper_bound` probe is the uint64 `dex_offset` narrowed to the uint32
key type; the acceptance test and the returned offset use the full
uint64 value. -/
def dexGetFunctionName (d : DexModel) (cache : List (Nat × DexInfo)) (pc : Nat) :
    Option (String × Nat) × List (Nat × DexInfo) :=
  match mapUpperBound cache (sub64 pc d.base % 2^32) with
  | some e =>
    if e.2.offset ≤ sub64 pc d.base then
      (some (e.2.name, sub64 (sub64 pc d.base) e.2.offset), cache)
    else dexMiss d cache (sub64 pc d.base)
  | none => dexMiss d cache (sub64 pc d.base)

/-- C3 as stated: for a valid pc, the lookup uses `upper_bound` at the
file-relative offset `off = pc - base_addr` itself, accepts the entry
iff its start is at most `off`, and on acceptance answers
`(cached name, off - start)`. -/
def dexClaimC3 (d : DexModel) (cache : List (Nat × DexInfo)) (pc : Nat) : Prop :=
  dexIsValidPc d pc →
  dexGetFunctionName d cache pc =
    match mapUpperBound cache (pc - d.base) with
    | some e =>
      if e.2.offset ≤ pc - d.base then
        (some (e.2.name, pc - d.base - e.2.offset), cache)
      else dexMiss d cache (pc - d.base)
    | none => dexMiss d cache (pc - d.base)

/-- C3 counterexample: a DexFile whose file_size exceeds 2^32 admits a
valid pc with `off = pc - base_addr = 2^32`.  The uint32 key type
narrows the upper_bound probe to `0`, so the code answers from a cached
interval `[0, 1)` that does not contain `off` at all, while the claim's
untruncated lookup finds no entry and the ART oracle knows no method.
-/
theorem dexFile_getFunctionName_counterexample :
    ¬ dexClaimC3 ⟨0, 2^32 + 2, fun _ => none⟩ [(1, ⟨0, "f"⟩)] (2^32) := by
  intro h
  have := h (by constructor <;> norm_num)
  revert this
  decide

/-- C3 (amended): for a valid pc whose file-relative offset
`off = pc - base_addr` fits the uint32 cache key type, GetFunctionName
answers from `upper_bound(off)` exactly as the claim states: the entry
is accepted iff its start offset is at most `off`, acceptance answers
`(cached name, off - start)` without consulting the ART oracle, and
rejection falls through to the miss path; on a sorted cache the
upper_bound entry is the member with the smallest key strictly greater
than `off`. -/
theorem dexFile_getFunctionName_amended (d : DexModel) (cache : List (Nat × DexInfo))
    (pc : Nat) (hvalid : dexIsValidPc d pc) (hpc : pc < 2^64)
    (h32 : pc - d.base < 2^32) :
    (dexGetFunctionName d cache pc =
      match mapUpperBound cache (pc - d.base) with
      | some e =>
        if e.2.offset ≤ pc - d.base then
          (some (e.2.name, pc - d.base - e.2.offset), cache)
        else dexMiss d cache (pc - d.base)
      | none => dexMiss d cache (pc - d.base)) ∧
    (∀ e, mapUpperBound cache (pc - d.base) = some e → KeysSorted cache →
      e ∈ cache ∧ pc - d.base < e.1 ∧ ∀ e' ∈ cache, pc - d.base < e'.1 → e.1 ≤ e'.1) := by
  have hoff : sub64 pc d.base = pc - d.base := sub64_eq pc d.base hpc hvalid.1
  constructor
  · unfold dexGetFunctionName
    rw [hoff, Nat.mod_eq_of_lt h32]
    cases hub : mapUpperBound cache (pc - d.base) with
    | none => rfl
    | some e =>
      by_cases hacc : e.2.offset ≤ pc - d.base
      · simp only [hacc, if_true]
        rw [sub64_eq _ _ (by omega) hacc]
      · simp only [hacc, if_false]
  · intro e hub hsorted
    exact mapUpperBound_spec cache _ e hsorted hub

/-- Concrete witness for the amended C3: base 100, a cached interval
`[10, 30)`, pc 120; `off = 20`, the entry is accepted and the cached
name is returned with method offset `20 - 10 = 10`. -/
theorem dexFile_getFunctionName_amended_witness :
    dexGetFunctionName ⟨100, 50, fun _ => none⟩ [(30, ⟨10, "g"⟩)] 120 =
      (some ("g", 10), [(30, ⟨10, "g"⟩)]) := by
  have h := (dexFile_getFunctionName_amended ⟨100, 50, fun _ => none⟩ [(30, ⟨10, "g"⟩)] 120
    ⟨by norm_num, by norm_num⟩ (by norm_num) (by norm_num)).1
  rw [h]
  decide

/-! ### DexFile symbol cache invariant (C8) -/

/-- Every entry of the symbol cache was produced by the ART oracle:
its key is the method's `offset + code_size` and its stored start is
the method's code offset. -/
def DexCacheFromOracle (d : DexModel) (cache : List (Nat × DexInfo)) : Prop :=
  ∀ e ∈ cache, ∃ off m, d.findMethod off = some m ∧
    e.1 = m.offset + m.codeSize ∧ e.2.offset = m.offset

theorem dexMiss_oracle (d : DexModel) (cache : List (Nat × DexInfo)) (off : Nat)
    (h32 : ∀ o m, d.findMethod o = some m → m.offset + m.codeSize < 2^32)
    (hI : DexCacheFromOracle d cache) :
    DexCacheFromOracle d (dexMiss d cache off).2 := by
  unfold dexMiss
  cases hf : d.findMethod off with
  | none => exact hI
  | some m =>
    intro e he
    rcases mapEmplace_mem cache _ _ e he with h | rfl
    · exact hI e h
    · refine ⟨off, m, hf, ?_, rfl⟩
      show (m.offset + m.codeSize) % 2^32 = m.offset + m.codeSize
      exact Nat.mod_eq_of_lt (h32 off m hf)

theorem dexGetFunctionName_oracle (d : DexModel) (cache : List (Nat × DexInfo)) (pc : Nat)
    (h32 : ∀ o m, d.findMethod o = some m → m.offset + m.codeSize < 2^32)
    (hI : DexCacheFromOracle d cache) :
    DexCacheFromOracle d (dexGetFunctionName d cache pc).2 := by
  unfold dexGetFunctionName
  cases hub : mapUpperBound cache (sub64 pc d.base % 2^32) with
  | none => exact dexMiss_oracle d cache _ h32 hI
  | some e =>
    by_cases hacc : e.2.offset ≤ sub64 pc d.base
    · simp only [hacc, if_true]
      exact hI
    · simp only [hacc, if_false]
      exact dexMiss_oracle d cache _ h32 hI

/-- The cache after any sequence of GetFunctionName calls, starting
from the empty cache a fresh DexFile has. -/
def dexRunCalls (d : DexModel) (pcs : List Nat) : List (Nat × DexInfo) :=
  pcs.foldl (fun c pc => (dexGetFunctionName d c pc).2) []

/-- C8: after any sequence of GetFunctionName calls, every cached entry
keyed by exclusive end offset stores a start offset strictly below the
key, and no two cached intervals of the file overlap (DexFile.cpp lines
118-131, DexFile.h lines 69-70).  The hypotheses record the contract of
the external ART symbolizer: reported methods have code ranges that fit
the uint32 key, are non-empty, and are pairwise equal or disjoint. -/
theorem dexFile_symbolCache_invariant (d : DexModel) (pcs : List Nat)
    (h32 : ∀ o m, d.findMethod o = some m → m.offset + m.codeSize < 2^32)
    (hpos : ∀ o m, d.findMethod o = some m → 0 < m.codeSize)
    (hdisj : ∀ o1 o2 m1 m2, d.findMethod o1 = some m1 → d.findMethod o2 = some m2 →
      (m1.offset = m2.offset ∧ m1.codeSize = m2.codeSize) ∨
      m1.offset + m1.codeSize ≤ m2.offset ∨ m2.offset + m2.codeSize ≤ m1.offset) :
    (∀ e ∈ dexRunCalls d pcs, e.2.offset < e.1) ∧
    (∀ a ∈ dexRunCalls d pcs, ∀ b ∈ dexRunCalls d pcs,
      a.1 ≠ b.1 → a.1 ≤ b.2.offset ∨ b.1 ≤ a.2.offset) := by
  have hI : DexCacheFromOracle d (dexRunCalls d pcs) := by
    unfold dexRunCalls
    have hgen : ∀ c0 : List (Nat × DexInfo), DexCacheFromOracle d c0 →
        DexCacheFromOracle d (pcs.foldl (fun c pc => (dexGetFunctionName d c pc).2) c0) := by
      induction pcs with
      | nil => intro c0 h0; simpa using h0
      | cons p t ih =>
        intro c0 h0
        simpa using ih _ (dexGetFunctionName_oracle d c0 p h32 h0)
    exact hgen [] (by intro e he; simp at he)
  constructor
  · intro e he
    obtain ⟨off, m, hf, h1, h2⟩ := hI e he
    have := hpos off m hf
    omega
  · intro a ha b hb hne
    obtain ⟨o1, m1, hf1, ha1, ha2⟩ := hI a ha
    obtain ⟨o2, m2, hf2, hb1, hb2⟩ := hI b hb
    rcases hdisj o1 o2 m1 m2 hf1 hf2 with ⟨he1, he2⟩ | h | h
    · omega
    · left; omega
    · right; omega

/-- Concrete witness for C8: an oracle knowing the single method
`[0, 10)` named "m"; one call at pc 3 caches the entry keyed 10 with
start 0, and the invariant instantiates at that entry. -/
theorem dexFile_symbolCache_invariant_witness :
    ((10 : Nat), (⟨0, "m"⟩ : DexInfo)).2.offset < ((10 : Nat), (⟨0, "m"⟩ : DexInfo)).1 :=
  (dexFile_symbolCache_invariant
    ⟨0, 100, fun off => if off < 10 then some ⟨0, 10, "m"⟩ else none⟩ [3]
    (by
      intro o m h
      by_cases hc : o < 10
      · simp only [if_pos hc, Option.some.injEq] at h
        rw [← h]; decide
      · simp only [if_neg hc] at h; cases h)
    (by
      intro o m h
      by_cases hc : o < 10
      · simp only [if_pos hc, Option.some.injEq] at h
        rw [← h]; decide
      · simp only [if_neg hc] at h; cases h)
    (by
      intro o1 o2 m1 m2 h1 h2
      by_cases hc1 : o1 < 10
      · by_cases hc2 : o2 < 10
        · simp only [if_pos hc1, Option.some.injEq] at h1
          simp only [if_pos hc2, Option.some.injEq] at h2
          rw [← h1, ← h2]
          left; exact ⟨rfl, rfl⟩
        · simp only [if_neg hc2] at h2; cases h2
      · simp only [if_neg hc1] at h1; cases h1)).1
    (10, ⟨0, "m"⟩) (by decide)

/-! ### DexFile::Create and DexFile::CreateFromDisk (C10)

The cache lookup, file mapping and ART parse after the guards of
CreateFromDisk (DexFile.cpp lines 63-83) touch the file system, the
global weak cache and the ART library; they are abstracted as the
oracle `diskLoad`, a function of the map's file name, the computed file
offset and the size — exactly the key the global weak cache uses.  The
returned dex file is identified by a Nat handle. -/
structure MapRec where
  start : Nat
  end_ : Nat
  offset : Nat
  name : String
deriving DecidableEq, Repr

/-- DexFile::CreateFromDisk (DexFile.cpp lines 50-84). -/
def dexCreateFromDisk (diskLoad : String → Nat → Nat → Option Nat)
    (addr size : Nat) (map : Option MapRec) : Option Nat :=
  match map with
  | none => none
  | some m =>
    if m.name = "" then none
    else if ¬ (m.start ≤ addr ∧ addr < m.end_) then none
    else if m.end_ - addr < size then none
    else diskLoad m.name ((addr - m.start) + m.offset) size

/-- DexFile::Create (DexFile.cpp lines 86-112).  `hasDexSupport` is the
once-computed CheckDexSupport result, `resizeOk` the MemoryBuffer
resize result, `artBufCreate` the ART parse of the copied bytes; the
buffer fallback copies `file_size` bytes with ReadFully. -/
def dexCreate (hasDexSupport : Bool) (diskLoad : String → Nat → Nat → Option Nat)
    (artBufCreate : List Nat → Option Nat) (resizeOk : Bool)
    (base fileSize : Nat) (mem : Nat → Option Nat) (info : Option MapRec) : Option Nat :=
  if ¬ hasDexSupport ∨ fileSize = 0 then none
  else
    match dexCreateFromDisk diskLoad base fileSize info with
    | some dex => some dex
    | none =>
      if ¬ resizeOk then none
      else if (readBytes mem base fileSize).length = fileSize then
        artBufCreate (readBytes mem base fileSize)
      else none

/-- C10: DexFile::Create returns null whenever `file_size` is zero,
regardless of every other argument; and CreateFromDisk returns null
unless the MapInfo exists, is named, `addr` lies in
`[map.start, map.end)` and `size ≤ map.end - addr`
(DexFile.cpp lines 50-60 and 86-95). -/
theorem dexFile_create_guards (hasDexSupport resizeOk : Bool)
    (diskLoad : String → Nat → Nat → Option Nat) (artBufCreate : List Nat → Option Nat)
    (base : Nat) (mem : Nat → Option Nat) (info : Option MapRec)
    (addr size : Nat) (m : MapRec) :
    dexCreate hasDexSupport diskLoad artBufCreate resizeOk base 0 mem info = none ∧
    dexCreateFromDisk diskLoad addr size none = none ∧
    ((m.name = "" ∨ ¬ (m.start ≤ addr ∧ addr < m.end_) ∨ m.end_ - addr < size) →
      dexCreateFromDisk diskLoad addr size (some m) = none) := by
  refine ⟨?_, rfl, ?_⟩
  · unfold dexCreate
    rw [if_pos (Or.inr rfl)]
  · intro h
    simp only [dexCreateFromDisk]
    by_cases h1 : m.name = ""
    · rw [if_pos h1]
    · rw [if_neg h1]
      by_cases h2 : m.start ≤ addr ∧ addr < m.end_
      · rw [if_neg (not_not_intro h2)]
        rcases h with h | h | h
        · exact absurd h h1
        · exact absurd h2 h
        · rw [if_pos h]
      · rw [if_pos h2]

/-- Concrete witness for C10: Create with file_size 0 yields null even
with every oracle succeeding, and CreateFromDisk rejects a missing map
and an unnamed map. -/
theorem dexFile_create_guards_witness :
    dexCreate true (fun _ _ _ => some 1) (fun _ => some 2) true 5 0 (fun _ => some 0)
        (some ⟨0, 10, 0, "x"⟩) = none ∧
    dexCreateFromDisk (fun _ _ _ => some 1) 3 4 none = none ∧
    dexCreateFromDisk (fun _ _ _ => some 1) 3 4 (some ⟨0, 10, 0, ""⟩) = none := by
  have h := dexFile_create_guards true true (fun _ _ _ => some 1) (fun _ => some 2) 5
    (fun _ => some 0) (some ⟨0, 10, 0, "x"⟩) 3 4 ⟨0, 10, 0, ""⟩
  exact ⟨h.1, h.2.1, h.2.2 (Or.inl rfl)⟩

/-! ### MapInfo build ID publication (C7)

MapInfo.cpp lines 320-361.  The atomic `build_id_` pointer is modelled
as an optional string; `compare_exchange_strong(nullptr, new)` installs
the new value only when nothing is stored yet and otherwise yields the
stored value.  GetBuildID computes the raw build id (from the elf
object or the file, modelled as the `computed` argument) only when
nothing is published yet, then publishes through SetBuildID. -/
structure BuildIdSt where
  stored : Option String
deriving DecidableEq, Repr

/-- MapInfo::SetBuildID: returns the string the caller observes and the
new state. -/
def setBuildID (s : BuildIdSt) (newId : String) : String × BuildIdSt :=
  match s.stored with
  | none => (newId, ⟨some newId⟩)
  | some v => (v, s)

/-- MapInfo::GetBuildID. -/
def getBuildID (s : BuildIdSt) (computed : String) : String × BuildIdSt :=
  match s.stored with
  | some v => (v, s)
  | none => setBuildID s computed

/-- C7: the build ID is published exactly once — the first successful
SetBuildID stores its argument, every later SetBuildID returns the
first-stored value and discards its own argument, and two GetBuildID
calls on the same MapInfo return identical bytes even if they would
compute different raw values (MapInfo.cpp lines 320-361). -/
theorem mapInfo_buildID_once (s : BuildIdSt) (a b c1 c2 : String) :
    (s.stored = none →
      setBuildID s a = (a, ⟨some a⟩) ∧
      (setBuildID (setBuildID s a).2 b).1 = a ∧
      (setBuildID (setBuildID s a).2 b).2 = (setBuildID s a).2) ∧
    (∀ v, s.stored = some v → setBuildID s b = (v, s)) ∧
    (getBuildID s c1).1 = (getBuildID (getBuildID s c1).2 c2).1 := by
  refine ⟨?_, ?_, ?_⟩
  · intro h
    cases s with
    | mk st =>
      cases h
      exact ⟨rfl, rfl, rfl⟩
  · intro v h
    cases s with
    | mk st =>
      cases h
      rfl
  · cases s with
    | mk st =>
      cases st with
      | none => rfl
      | some v => rfl

/-- Concrete witness for C7: starting unpublished, publishing "abc"
then attempting "zzz" keeps "abc"; two GetBuildID calls computing
different raw bytes agree. -/
theorem mapInfo_buildID_once_witness :
    setBuildID ⟨none⟩ "abc" = ("abc", ⟨some "abc"⟩) ∧
    (setBuildID (setBuildID ⟨none⟩ "abc").2 "zzz").1 = "abc" ∧
    (getBuildID ⟨none⟩ "p").1 = (getBuildID (getBuildID ⟨none⟩ "p").2 "q").1 := by
  have h := mapInfo_buildID_once ⟨none⟩ "abc" "zzz" "p" "q"
  exact ⟨(h.1 rfl).1, (h.1 rfl).2.1, h.2.2⟩

/-! ### RegsRiscv64::SetPcFromReturnAddress (C9)

RegsRiscv64.cpp lines 86-94.  The register file `regs_` is modelled as
a total map from register index to uint64 value.  The numeric values
of the register indices come from MachineRiscv64.h, which is not under
src/; they follow the kernel `user_regs_struct` ordering that
RegsRiscv64::Read copies from (pc first, then ra, sp, ...).  Only their
distinctness matters below. -/
def RISCV64_REG_PC : Nat := 0
def RISCV64_REG_RA : Nat := 1

def riscv64SetPcFromReturnAddress (r : Nat → Nat) : Bool × (Nat → Nat) :=
  if r RISCV64_REG_PC = r RISCV64_REG_RA then (false, r)
  else (true, fun i => if i = RISCV64_REG_PC then r RISCV64_REG_RA else r i)

/-- C9: SetPcFromReturnAddress returns false and leaves every register
unchanged when PC already equals RA; otherwise it returns true, sets PC
to RA and modifies no other register (RegsRiscv64.cpp lines 86-94). -/
theorem riscv64_setPcFromReturnAddress_spec (r : Nat → Nat) :
    (r RISCV64_REG_PC = r RISCV64_REG_RA →
      riscv64SetPcFromReturnAddress r = (false, r)) ∧
    (r RISCV64_REG_PC ≠ r RISCV64_REG_RA →
      (riscv64SetPcFromReturnAddress r).1 = true ∧
      (riscv64SetPcFromReturnAddress r).2 RISCV64_REG_PC = r RISCV64_REG_RA ∧
      ∀ i, i ≠ RISCV64_REG_PC → (riscv64SetPcFromReturnAddress r).2 i = r i) := by
  constructor
  · intro h
    unfold riscv64SetPcFromReturnAddress
    rw [if_pos h]
  · intro h
    unfold riscv64SetPcFromReturnAddress
    rw [if_neg h]
    exact ⟨rfl, by simp, fun i hi => by simp [hi]⟩

/-- Concrete witness for C9: with pc = 7 and ra = 9 the call succeeds,
pc becomes 9 and register 5 is untouched; with pc = ra = 3 the call
fails and pc stays 3. -/
theorem riscv64_setPcFromReturnAddress_spec_witness :
    (riscv64SetPcFromReturnAddress (fun i => if i = 0 then 7 else 9)).1 = true ∧
    (riscv64SetPcFromReturnAddress (fun i => if i = 0 then 7 else 9)).2 RISCV64_REG_PC = 9 ∧
    (riscv64SetPcFromReturnAddress (fun i => if i = 0 then 7 else 9)).2 5 = 9 ∧
    riscv64SetPcFromReturnAddress (fun _ => 3) = (false, fun _ => 3) := by
  have h1 := (riscv64_setPcFromReturnAddress_spec (fun i => if i = 0 then 7 else 9)).2
    (by decide)
  have h2 := (riscv64_setPcFromReturnAddress_spec (fun _ => 3)).1 rfl
  exact ⟨h1.1, h1.2.1, h1.2.2 5 (by decide), h2⟩

/-! ### MemoryXz::Init (Memory.cpp lines 516-557) (C5)

The XZ codec is the external capability the spec declares opaque: the
oracle `dec` maps a block's compressed offset and size to its
decompressed bytes (`MemoryXz::Decompress`), or `none` when decoding
fails.  `ReadBlocks` produced the block list (all with
`decompressed_data == nullptr`, i.e. `data = none`) and set `size_` to
the sum of the decompressed sizes; they are passed in as `blocks` and
`total`.  `__builtin_ctz` on a nonzero uint32 is the two-adic
valuation, modelled by `ctz` (`__builtin_ctz(0)` is undefined in C; the
merge theorem below carries `0 < b0.dsize` to exclude that corner). -/
def ctz (n : Nat) : Nat :=
  if h1 : n = 0 then 0
  else if h2 : n % 2 = 1 then 0
  else ctz (n / 2) + 1
termination_by n
decreasing_by exact Nat.div_lt_self (Nat.pos_of_ne_zero h1) (by omega)

theorem ctz_two_pow (k : Nat) : ctz (2^k) = k := by
  induction k with
  | zero => simp [ctz]
  | succ j ih =>
    have h1 : (2:Nat)^(j+1) ≠ 0 := by positivity
    have h2 : ¬ ((2:Nat)^(j+1) % 2 = 1) := by
      have : (2:Nat)^(j+1) = 2 * 2^j := by ring
      omega
    have h3 : (2:Nat)^(j+1) / 2 = 2^j := by
      have : (2:Nat)^(j+1) = 2^j * 2 := by ring
      omega
    unfold ctz
    rw [dif_neg h1, dif_neg h2, h3, ih]

structure XzBlock where
  dsize : Nat
  data : Option (List Nat)
  coff : Nat
  csize : Nat
deriving DecidableEq, Repr

/-- The merge loop of MemoryXz::Init: decompress every block in order
and concatenate `decompressed_size` bytes of each into one buffer;
any decode failure fails the whole Init. -/
def xzMergeLoop (dec : Nat → Nat → Option (List Nat)) : List XzBlock → Option (List Nat)
  | [] => some []
  | b :: t =>
    match dec b.coff b.csize with
    | none => none
    | some d =>
      match xzMergeLoop dec t with
      | none => none
      | some rest => some (d.take b.dsize ++ rest)

/-- The block post-processing of MemoryXz::Init (Memory.cpp lines
529-554).  With more than one block: if every block except the last has
decompressed size `2^ctz(first)` and the last is no larger, record that
log2 and decompress nothing; otherwise decompress and merge everything
into a single block of size `size_` (= `total`) with
`block_size_log2_ = 31`. -/
def xzInit (dec : Nat → Nat → Option (List Nat)) (total log2cur : Nat)
    (blocks : List XzBlock) : Option (List XzBlock × Nat) :=
  match blocks with
  | [] => some ([], log2cur)
  | [b] => some ([b], log2cur)
  | b0 :: b1 :: rest =>
    if (∀ b ∈ (b0 :: b1 :: rest).dropLast, b.dsize = 2^(ctz b0.dsize)) ∧
        ((b0 :: b1 :: rest).getLastD b0).dsize ≤ 2^(ctz b0.dsize) then
      some (b0 :: b1 :: rest, ctz b0.dsize)
    else
      match xzMergeLoop dec (b0 :: b1 :: rest) with
      | none => none
      | some merged => some ([⟨total, some merged, 0, 0⟩], 31)

theorem xzMergeLoop_total (dec : Nat → Nat → Option (List Nat)) (bs : List XzBlock)
    (hdec : ∀ b ∈ bs, ∃ d, dec b.coff b.csize = some d ∧ d.length = b.dsize) :
    ∃ merged, xzMergeLoop dec bs = some merged ∧
      merged.length = (bs.map XzBlock.dsize).sum := by
  induction bs with
  | nil => exact ⟨[], rfl, by simp⟩
  | cons b t ih =>
    obtain ⟨d, hd, hl⟩ := hdec b (List.mem_cons_self _ _)
    obtain ⟨rest, hr, hrl⟩ := ih (fun x hx => hdec x (List.mem_cons_of_mem _ hx))
    refine ⟨d.take b.dsize ++ rest, ?_, ?_⟩
    · unfold xzMergeLoop
      rw [hd, hr]
    · simp [hl, hrl]

/-- C5: when Init saw more than one compressed block, (1) if every
block but the last has the same power-of-two decompressed size `2^k`
and the last is at most `2^k`, then `block_size_log2` becomes `k` and
the block list is returned unchanged — no block is decompressed; (2)
otherwise (with decoding succeeding, the codec being opaque) all blocks
are decompressed and merged immediately into one block whose size is
the total decompressed size, with `block_size_log2 = 31`
(Memory.cpp lines 516-557). -/
theorem memoryXz_init_blocks (dec : Nat → Nat → Option (List Nat)) (total log2cur : Nat)
    (b0 b1 : XzBlock) (rest : List XzBlock) :
    (∀ k, (∀ b ∈ (b0 :: b1 :: rest).dropLast, b.dsize = 2^k) →
      ((b0 :: b1 :: rest).getLastD b0).dsize ≤ 2^k →
      xzInit dec total log2cur (b0 :: b1 :: rest) = some (b0 :: b1 :: rest, k)) ∧
    (0 < b0.dsize →
      (¬ ∃ k, (∀ b ∈ (b0 :: b1 :: rest).dropLast, b.dsize = 2^k) ∧
        ((b0 :: b1 :: rest).getLastD b0).dsize ≤ 2^k) →
      (∀ b ∈ b0 :: b1 :: rest, ∃ d, dec b.coff b.csize = some d ∧ d.length = b.dsize) →
      total = ((b0 :: b1 :: rest).map XzBlock.dsize).sum →
      ∃ merged,
        xzInit dec total log2cur (b0 :: b1 :: rest) = some ([⟨total, some merged, 0, 0⟩], 31) ∧
        merged.length = total) := by
  constructor
  · intro k hall hlast
    have hmem : b0 ∈ (b0 :: b1 :: rest).dropLast := by
      have : (b0 :: b1 :: rest).dropLast = b0 :: (b1 :: rest).dropLast := rfl
      rw [this]
      exact List.mem_cons_self _ _
    have hctz : ctz b0.dsize = k := by rw [hall b0 hmem, ctz_two_pow]
    simp only [xzInit]
    rw [hctz, if_pos ⟨hall, hlast⟩]
  · intro hpos hnex hdec htotal
    have hcond : ¬ ((∀ b ∈ (b0 :: b1 :: rest).dropLast, b.dsize = 2^(ctz b0.dsize)) ∧
        ((b0 :: b1 :: rest).getLastD b0).dsize ≤ 2^(ctz b0.dsize)) := by
      intro hc
      exact hnex ⟨ctz b0.dsize, hc.1, hc.2⟩
    obtain ⟨merged, hm, hml⟩ := xzMergeLoop_total dec _ hdec
    refine ⟨merged, ?_, by rw [hml, htotal]⟩
    simp only [xzInit]
    rw [if_neg hcond, hm]

/-- Concrete witness for C5, exercising both branches: blocks of sizes
4, 4, 2 keep `block_size_log2 = 2` and stay untouched; blocks of sizes
3 and 2 (3 is not a power of two) are merged into one block. -/
theorem memoryXz_init_blocks_witness :
    xzInit (fun _ _ => none) 10 0
        [⟨4, none, 0, 8⟩, ⟨4, none, 8, 8⟩, ⟨2, none, 16, 8⟩] =
      some ([⟨4, none, 0, 8⟩, ⟨4, none, 8, 8⟩, ⟨2, none, 16, 8⟩], 2) ∧
    xzInit (fun c _ => if c = 0 then some [9, 9, 9] else some [8, 8]) 5 0
        [⟨3, none, 0, 4⟩, ⟨2, none, 4, 4⟩] ≠ none := by
  constructor
  · exact (memoryXz_init_blocks (fun _ _ => none) 10 0 ⟨4, none, 0, 8⟩ ⟨4, none, 8, 8⟩
      [⟨2, none, 16, 8⟩]).1 2 (by decide) (by decide)
  · obtain ⟨merged, hm, _⟩ := (memoryXz_init_blocks
      (fun c _ => if c = 0 then some [9, 9, 9] else some [8, 8]) 5 0
      ⟨3, none, 0, 4⟩ ⟨2, none, 4, 4⟩ []).2 (by decide)
      (by
        rintro ⟨k, hk, _⟩
        have h3 : (3:Nat) = 2^k := hk ⟨3, none, 0, 4⟩ (by decide)
        rcases k with _ | _ | k2
        · simp at h3
        · simp at h3
        · have : 4 ≤ 2^(k2+2) := by
            calc (4:Nat) = 2^2 := by norm_num
              _ ≤ 2^(k2+2) := Nat.pow_le_pow_right (by omega) (by omega)
          omega)
      (by
        intro b hb
        rcases List.mem_cons.mp hb with rfl | hb
        · exact ⟨[9, 9, 9], rfl, rfl⟩
        · rcases List.mem_cons.mp hb with rfl | hb
          · exact ⟨[8, 8], rfl, rfl⟩
          · cases hb)
      (by decide)
    rw [hm]
    simp

/-! ### GlobalDebugImpl::ForEachSymfile entry-list walk (C6)

GlobalDebugImpl.h lines 110-140.  The walk keeps following the entry
list while `entry_addr_ != 0`.  `readE` models `ReadEntry`: reading the
JITCodeEntry record at an address yields `(next, symfile_addr,
symfile_size)` or fails (`ReadFully` failure), in which case ReadEntry
returns 0 and the loop exits.  (On that failure path the source passes
the uninitialized locals `start`/`size` to one last `Load`; the model
takes that load as failing, which its garbage arguments make in
practice.)  `load` models `GlobalDebugInterface::Load`, whose
specializations live outside src/: per the spec it wraps the
`[symfile_addr, symfile_addr + symfile_size)` range of target memory
and attempts the kind-specific (ELF or DEX) constructor, returning
nothing when construction fails.  `cb` is the iteration callback; a
`true` result stops the iteration with success.  The C++ `while` loop
is given explicit `fuel`; every theorem below is a step equation, so
fuel only bounds the walk length. -/
def forEachWalk (readE : Nat → Option (Nat × Nat × Nat)) (load : Nat → Nat → Option α)
    (cb : α → Bool) : Nat → Nat → List α → (List α × Nat × Bool)
  | 0, ea, es => (es, ea, false)
  | fuel+1, ea, es =>
    if ea = 0 then (es, 0, false)
    else
      match readE ea with
      | none => (es, 0, false)
      | some (next, saddr, ssize) =>
        match load saddr ssize with
        | none => forEachWalk readE load cb fuel next es
        | some f =>
          if cb f then (es ++ [f], next, true)
          else forEachWalk readE load cb fuel next (es ++ [f])

/-- C6 as stated, instantiated at a concrete catalog: the target's
entry list holds entry 1 with a zeroed `symfile_addr` (per the claim, a
corrupt descriptor at which the walk halts) followed by entry 2 whose
symbol file (handle 7) loads fine.  If the walk halted at the corrupt
entry, the loaded-entries list would stay empty. -/
def forEachWalkHaltsAtZeroSymfile : Prop :=
  (forEachWalk
      (fun a => if a = 1 then some (2, 0, 4) else if a = 2 then some (0, 10, 4) else none)
      (fun s _ => if s = 10 then some 7 else none)
      (fun _ => false) 3 1 ([] : List Nat)).1 = []

/-- C6 counterexample: the walk does not halt at the zeroed
`symfile_addr` — that entry merely fails to load and is skipped, and
the following entry is loaded (the walk ends with entries = [7]). -/
theorem globalDebug_walk_counterexample : ¬ forEachWalkHaltsAtZeroSymfile := by
  unfold forEachWalkHaltsAtZeroSymfile
  decide

/-- C6 (amended): during the catalog's walk of the entry list, an entry
whose symbol-file construction fails — including one whose
`symfile_addr` is zero — is skipped and the walk continues with the
next entry; the walk halts only when the next-entry pointer is zero or
the entry record cannot be read from target memory
(GlobalDebugImpl.h lines 110-140). -/
theorem globalDebug_forEachSymfile_walk {α : Type} (readE : Nat → Option (Nat × Nat × Nat))
    (load : Nat → Nat → Option α) (cb : α → Bool) (fuel ea next saddr ssize : Nat)
    (es : List α) :
    forEachWalk readE load cb fuel 0 es = (es, 0, false) ∧
    (ea ≠ 0 → readE ea = none →
      forEachWalk readE load cb (fuel+1) ea es = (es, 0, false)) ∧
    (ea ≠ 0 → readE ea = some (next, saddr, ssize) → load saddr ssize = none →
      forEachWalk readE load cb (fuel+1) ea es = forEachWalk readE load cb fuel next es) ∧
    (∀ f, ea ≠ 0 → readE ea = some (next, saddr, ssize) → load saddr ssize = some f →
      cb f = false →
      forEachWalk readE load cb (fuel+1) ea es =
        forEachWalk readE load cb fuel next (es ++ [f])) := by
  refine ⟨?_, ?_, ?_, ?_⟩
  · cases fuel with
    | zero => rfl
    | succ n => simp [forEachWalk]
  · intro hea hre
    simp only [forEachWalk, if_neg hea, hre]
  · intro hea hre hld
    simp only [forEachWalk, if_neg hea, hre, hld]
  · intro f hea hre hld hcb
    simp only [forEachWalk, if_neg hea, hre, hld, hcb, if_false]
    rw [if_neg (by simp [hcb])]

/-- Concrete witness for the amended C6: an entry at address 5 whose
load fails is skipped (the walk continues at the zero next pointer and
then stops with nothing loaded), and a walk starting at entry address 0
stops immediately. -/
theorem globalDebug_forEachSymfile_walk_witness :
    forEachWalk (fun a => if a = 5 then some (0, 0, 4) else none)
        (fun _ _ => none) (fun _ => false) 2 5 ([] : List Nat) =
      forEachWalk (fun a => if a = 5 then some (0, 0, 4) else none)
        (fun _ _ => none) (fun _ => false) 1 0 [] ∧
    forEachWalk (fun a => if a = 5 then some (0, 0, 4) else none)
        (fun _ _ => none) (fun _ => false) 1 0 ([] : List Nat) = ([], 0, false) := by
  have h := globalDebug_forEachSymfile_walk
    (fun a => if a = 5 then some (0, 0, 4) else none)
    (fun _ _ => none) (fun _ => false) 1 5 0 0 4 ([] : List Nat)
  exact ⟨h.2.2.1 (by decide) rfl rfl, h.1⟩

/-! ### MapInfo::CreateMemory (MapInfo.cpp lines 37-211) (C1)

The file system and the ELF header parser behind
`MemoryFileAtOffset::Init`, `Elf::GetInfo` and `Elf::IsValidElf` are
modelled by `FileOracle`: the backing file of the map's `name_` has
`fsize` bytes; `getInfo off len` is what `Elf::GetInfo` reports for a
file memory exposing `len` bytes at file offset `off` (`none` when no
valid ELF header is there), and `validElf off len` likewise for
`Elf::IsValidElf`.  A constructed `MemoryFileAtOffset` is summarized by
the file offset and exposed length (`FileMem`). -/
structure FileMem where
  off : Nat
  len : Nat
deriving DecidableEq, Repr

structure FileOracle where
  fsize : Nat
  getInfo : Nat → Nat → Option Nat
  validElf : Nat → Nat → Bool

def UINT64_MAX : Nat := 2^64 - 1

def PROT_READ : Nat := 1

/-- MAPS_FLAGS_DEVICE_MAP bit (the flags header is not under src/;
only that the bit is disjoint from the protection bits matters). -/
def MAPS_FLAGS_DEVICE_MAP : Nat := 0x8000

/-- MemoryFileAtOffset::Init (Memory.cpp lines 264-302): fails when the
offset is at or past the end of the file, otherwise exposes
`min size (fsize - offset)` bytes starting at the file offset (mmap
failure is not modelled).  The declaration's default `size` argument is
UINT64_MAX. -/
def fileInit (o : FileOracle) (off size : Nat) : Option FileMem :=
  if off < o.fsize then some ⟨off, min size (o.fsize - off)⟩ else none

/-- The prev_real_map / next_real_map neighbour of a MapInfo. -/
structure NeighborMap where
  start : Nat
  end_ : Nat
  offset : Nat
  flags : Nat
  name : String
deriving DecidableEq, Repr

structure MapI where
  start : Nat
  end_ : Nat
  offset : Nat
  flags : Nat
  name : String
  prevReal : Option NeighborMap
  nextReal : Option NeighborMap
deriving DecidableEq, Repr

/-- MapInfo::InitFileMemoryFromPreviousReadOnlyMap (MapInfo.cpp lines
37-61).  On success returns the file memory together with the assigned
`(elf_offset_, elf_start_offset_)`.  Note the code checks only that
`prev_real_map_` exists and is exactly PROT_READ; it does not compare
names or require a zero offset, and its probe spans
`end_ - prev_real_map_->end_` bytes. -/
def initFromPrev (o : FileOracle) (m : MapI) : Option (FileMem × Nat × Nat) :=
  match m.prevReal with
  | none => none
  | some p =>
    if p.flags ≠ PROT_READ then none
    else
      match fileInit o p.offset (sub64 m.end_ p.end_) with
      | none => none
      | some mem1 =>
        match o.getInfo mem1.off mem1.len with
        | none => none
        | some maxSize =>
          if maxSize < sub64 m.end_ p.end_ then none
          else
            match fileInit o p.offset maxSize with
            | none => none
            | some mem2 => some (mem2, sub64 m.offset p.offset, p.offset)

/-- The shared tail of MapInfo::GetFileMemory (lines 122-133): try the
previous read-only map, else fall back to a file memory of just this
map with both elf offsets left 0. -/
def getFileMemoryTail (o : FileOracle) (m : MapI) : Option (FileMem × Nat × Nat) :=
  match initFromPrev o m with
  | some r => some r
  | none =>
    match fileInit o m.offset (sub64 m.end_ m.start) with
    | some mem4 => some (mem4, 0, 0)
    | none => none

/-- MapInfo::GetFileMemory (MapInfo.cpp lines 63-134).  Returns the
file memory and the assigned `(elf_offset_, elf_start_offset_)`; all
nullptr returns leave both offsets 0. -/
def getFileMemory (o : FileOracle) (m : MapI) : Option (FileMem × Nat × Nat) :=
  if m.offset = 0 then
    match fileInit o 0 UINT64_MAX with
    | some mem => some (mem, 0, 0)
    | none => none
  else
    match fileInit o m.offset (sub64 m.end_ m.start) with
    | none => none
    | some mem =>
      match o.getInfo mem.off mem.len with
      | some maxSize =>
        if sub64 m.end_ m.start < maxSize then
          match fileInit o m.offset maxSize with
          | some mem2 => some (mem2, 0, m.offset)
          | none =>
            match fileInit o m.offset (sub64 m.end_ m.start) with
            | some mem3 => some (mem3, 0, m.offset)
            | none => none
        else some (mem, 0, m.offset)
      | none =>
        match fileInit o 0 UINT64_MAX with
        | some memW =>
          if o.validElf memW.off memW.len then
            some (memW, m.offset,
              match m.prevReal with
              | some p =>
                if p.offset = 0 ∧ p.flags = PROT_READ ∧ p.name = m.name then 0 else m.offset
              | none => m.offset)
          else getFileMemoryTail o m
        | none => getFileMemoryTail o m

/-- The memory object MapInfo::CreateMemory produces: a file memory, a
single MemoryRange over process memory, or a MemoryRanges union of
`(begin, length, offset)` ranges. -/
inductive CreatedMem where
  | file (mem : FileMem)
  | range (begin_ len off : Nat)
  | ranges (rs : List (Nat × Nat × Nat))
deriving DecidableEq, Repr

/-- MapInfo::CreateMemory (MapInfo.cpp lines 136-211).  `hasProc` is
`process_memory != nullptr`; `pelf` is `Elf::IsValidElf` on the
process-memory range `[start_, end_)` (an oracle on target memory).
Returns the created memory and the resulting
`(elf_offset_, elf_start_offset_)`. -/
def createMemory (o : FileOracle) (hasProc pelf : Bool) (m : MapI) :
    Option (CreatedMem × Nat × Nat) :=
  if m.end_ ≤ m.start then none
  else if m.flags &&& MAPS_FLAGS_DEVICE_MAP ≠ 0 then none
  else
    match (if m.name ≠ "" then getFileMemory o m else none) with
    | some r => some (CreatedMem.file r.1, r.2.1, r.2.2)
    | none =>
      if ¬ hasProc then none
      else if pelf then
        match m.nextReal with
        | some n =>
          if m.offset = 0 ∧ m.name ≠ "" ∧ m.offset < n.offset ∧ n.name = m.name then
            some (CreatedMem.ranges [(m.start, sub64 m.end_ m.start, 0),
              (n.start, sub64 n.end_ n.start, sub64 n.offset m.offset)], 0, 0)
          else some (CreatedMem.range m.start (sub64 m.end_ m.start) 0, 0, 0)
        | none => some (CreatedMem.range m.start (sub64 m.end_ m.start) 0, 0, 0)
      else
        match m.prevReal with
        | some p =>
          if m.offset ≠ 0 ∧ m.name ≠ "" ∧ p.name = m.name ∧ p.offset < m.offset then
            some (CreatedMem.ranges [(p.start, sub64 p.end_ p.start, 0),
              (m.start, sub64 m.end_ m.start, sub64 m.offset p.offset)],
              sub64 m.offset p.offset, p.offset)
          else none
        | none => none

/-- C1 as stated: offset nonzero, no ELF header at that file offset,
previous real map read-only with the same name and zero offset imply
that CreateMemory builds a file memory spanning
`prev_real.start .. this.end` (file offset `prev_real.offset`, length
`end - prev_real.start`) with `elf_offset = offset - prev_real.offset`
and `elf_start_offset = prev_real.offset`. -/
def mapInfoClaimC1 (o : FileOracle) (hasProc pelf : Bool) (m : MapI) (p : NeighborMap) : Prop :=
  m.prevReal = some p →
  m.offset ≠ 0 →
  (∀ len, o.getInfo m.offset len = none) →
  p.flags = PROT_READ → p.name = m.name → p.offset = 0 →
  createMemory o hasProc pelf m =
    some (CreatedMem.file ⟨p.offset, m.end_ - p.start⟩, m.offset - p.offset, p.offset)

/-- C1 counterexample: maps `libc.so` r-- [0x1000,0x2000) offset 0 and
r-x [0x3000,0x4000) offset 0x3000 over a 0x4000-byte file that holds no
valid ELF header anywhere.  All preconditions of the claim hold, yet
`Elf::GetInfo` at `prev_real.offset` fails, so CreateMemory falls back
to a file memory of just this map with `elf_offset = 0` — not
`offset - prev_real.offset = 0x3000`. -/
theorem mapInfo_createMemory_counterexample :
    ¬ mapInfoClaimC1 ⟨0x4000, fun _ _ => none, fun _ _ => false⟩ true true
      ⟨0x3000, 0x4000, 0x3000, 5, "libc.so", some ⟨0x1000, 0x2000, 0, 1, "libc.so"⟩, none⟩
      ⟨0x1000, 0x2000, 0, 1, "libc.so"⟩ := by
  intro h
  have hc := h rfl (by decide) (fun _ => rfl) rfl rfl rfl
  revert hc
  decide

/-- C1 (amended): offset nonzero, no ELF header at that file offset,
previous real map read-only (same name, zero offset as the claim has
it — the code only requires PROT_READ); provided additionally that the
whole file is not itself a valid ELF, the map's offset lies inside the
file, and the ELF header found at `prev_real.offset` reports a size
`max_size` at least `end - prev_real.end` and at most the file size:
CreateMemory builds a file memory at file offset `prev_real.offset` of
length `max_size` (thereby covering `prev_real`'s data through at least
this map's end) and sets `elf_offset = offset - prev_real.offset` and
`elf_start_offset = prev_real.offset`
(MapInfo.cpp lines 37-61, 63-134, 136-211). -/
theorem mapInfo_createMemory_prevReadOnly (o : FileOracle) (hasProc pelf : Bool)
    (m : MapI) (p : NeighborMap) (maxSize : Nat)
    (hprev : m.prevReal = some p)
    (hoff : m.offset ≠ 0)
    (hno : ∀ len, o.getInfo m.offset len = none)
    (hpf : p.flags = PROT_READ) (hpn : p.name = m.name) (hpo : p.offset = 0)
    (hse : m.start < m.end_)
    (hdev : m.flags &&& MAPS_FLAGS_DEVICE_MAP = 0)
    (hname : m.name ≠ "")
    (hb : m.end_ < 2^64) (hob : m.offset < 2^64) (hpe : p.end_ ≤ m.end_)
    (hinit1 : m.offset < o.fsize)
    (hwhole : o.validElf 0 (min UINT64_MAX o.fsize) = false)
    (hinfo : o.getInfo 0 (min (m.end_ - p.end_) o.fsize) = some maxSize)
    (hge : m.end_ - p.end_ ≤ maxSize)
    (hfit : maxSize ≤ o.fsize) :
    createMemory o hasProc pelf m = some (CreatedMem.file ⟨0, maxSize⟩, m.offset, 0) ∧
    m.end_ - p.end_ ≤ maxSize := by
  have hfs0 : 0 < o.fsize := by omega
  have hsubP : sub64 m.end_ p.end_ = m.end_ - p.end_ := sub64_eq _ _ hb hpe
  have hs0 : sub64 m.offset 0 = m.offset := sub64_eq m.offset 0 hob (Nat.zero_le _)
  have hnotlt : ¬ (maxSize < sub64 m.end_ p.end_) := by rw [hsubP]; omega
  have hmin : min maxSize (o.fsize - 0) = maxSize := by
    rw [Nat.sub_zero]; exact min_eq_left hfit
  have hifp : initFromPrev o m = some (⟨0, maxSize⟩, m.offset, 0) := by
    simp only [initFromPrev, hprev, hpf, hpo, fileInit, if_pos hfs0, Nat.sub_zero, hsubP,
      hinfo, if_neg hnotlt, hs0, ne_eq, not_true_eq_false, if_false, ite_false]
    rw [Nat.sub_zero] at hmin
    simp [hmin]
    omega
  have hgfm : getFileMemory o m = some (⟨0, maxSize⟩, m.offset, 0) := by
    simp only [getFileMemory, hoff, fileInit, if_pos hinit1, if_pos hfs0, hno, hwhole,
      hifp, getFileMemoryTail, if_false, ite_false, Nat.sub_zero]
    simp
  have hnse : ¬ (m.end_ ≤ m.start) := by omega
  refine ⟨?_, hge⟩
  simp only [createMemory, hnse, hdev, hname, hgfm, ne_eq, not_true_eq_false,
    not_false_eq_true, if_false, if_true, ite_false, ite_true]

/-- Concrete witness for the amended C1: `libc.so` r-- [0x1000,0x2000)
offset 0 and r-x [0x3000,0x4000) offset 0x3000 over a 0x5000-byte file
whose ELF header at offset 0 reports size 0x5000; CreateMemory builds
the file memory [0, 0x5000) with elf_offset 0x3000 and
elf_start_offset 0. -/
theorem mapInfo_createMemory_prevReadOnly_witness :
    createMemory
        ⟨0x5000,
          fun off len => if off = 0 then (if len = 0x2000 then some 0x5000 else none) else none,
          fun _ _ => false⟩ true true
        ⟨0x3000, 0x4000, 0x3000, 5, "libc.so", some ⟨0x1000, 0x2000, 0, 1, "libc.so"⟩, none⟩ =
      some (CreatedMem.file ⟨0, 0x5000⟩, 0x3000, 0) :=
  (mapInfo_createMemory_prevReadOnly
    ⟨0x5000,
      fun off len => if off = 0 then (if len = 0x2000 then some 0x5000 else none) else none,
      fun _ _ => false⟩ true true
    ⟨0x3000, 0x4000, 0x3000, 5, "libc.so", some ⟨0x1000, 0x2000, 0, 1, "libc.so"⟩, none⟩
    ⟨0x1000, 0x2000, 0, 1, "libc.so"⟩ 0x5000
    rfl (by decide) (fun _ => rfl) rfl rfl rfl (by decide) (by decide) (by decide)
    (by decide) (by decide) (by decide) (by decide) rfl (by decide) (by decide)
    (by decide)).1
